/-
Verification of the game-theory duel engine (config.py, agent.py, match.py,
tournament.py) against its natural-language specification.

The source is shallowly embedded: Python ints become `Int`, action strings
("beat" / "still") are kept as `String` exactly as in the source, mutable
agent objects become explicit state passing, and code that raises exceptions
returns `Except String _`.  Python float arithmetic (score averaging) is
modelled over `ℚ`.
-/
import Mathlib

set_option linter.unusedVariables false
set_option maxRecDepth 8192

/-! ## GameConfig (config.py) -/

structure GameConfig where
  beat : Int
  wwin : Int
  llost : Int
  beaten : Int
  rounds_per_match : Int
  num_matches : Int
deriving DecidableEq, Repr

/-- Embedding of `GameConfig.__init__`: validates
`beat > wwin > llost >= beaten` and that the round / match counts are
positive, raising `ValueError` (modelled as `.error`) otherwise. -/
def mkGameConfig (beat wwin llost beaten rounds_per_match num_matches : Int) :
    Except String GameConfig :=
  if ¬ (beat > wwin ∧ wwin > llost ∧ llost ≥ beaten) then
    .error "参数必须满足 beat > wwin > llost >= beaten"
  else if rounds_per_match ≤ 0 ∨ num_matches ≤ 0 then
    .error "回合数和匹配次数必须为正整数"
  else
    .ok ⟨beat, wwin, llost, beaten, rounds_per_match, num_matches⟩

/-- The validity predicate a successfully constructed config satisfies. -/
def GameConfig.Valid (c : GameConfig) : Prop :=
  c.beat > c.wwin ∧ c.wwin > c.llost ∧ c.llost ≥ c.beaten ∧
    0 < c.rounds_per_match ∧ 0 < c.num_matches

instance (c : GameConfig) : Decidable c.Valid := by
  unfold GameConfig.Valid; infer_instance

/-- C5: `GameConfig` construction succeeds exactly when
`beat > wwin > llost >= beaten` holds and both counts are positive, and on
success all six parameters are stored unchanged. -/
theorem gameConfig_validation (beat wwin llost beaten rpm nm : Int) :
    ((mkGameConfig beat wwin llost beaten rpm nm).isOk = true ↔
      (beat > wwin ∧ wwin > llost ∧ llost ≥ beaten ∧ 0 < rpm ∧ 0 < nm)) ∧
    (∀ c, mkGameConfig beat wwin llost beaten rpm nm = .ok c →
      c = ⟨beat, wwin, llost, beaten, rpm, nm⟩) := by
  constructor
  · unfold mkGameConfig
    split
    · simp only [Except.isOk, Except.toBool]
      constructor
      · intro h; cases h
      · intro h; omega
    · split
      · simp only [Except.isOk, Except.toBool]
        constructor
        · intro h; cases h
        · intro h; omega
      · simp only [Except.isOk, Except.toBool, true_iff]
        omega
  · intro c hc
    unfold mkGameConfig at hc
    split at hc
    · cases hc
    · split at hc
      · cases hc
      · exact (Except.ok.injEq _ _).mp hc |>.symm ▸ rfl

/-- Witness for C5 at a concrete input. -/
theorem gameConfig_validation_witness :
    (mkGameConfig 5 3 1 0 2 2).isOk = true ∧
      (⟨5, 3, 1, 0, 2, 2⟩ : GameConfig) = ⟨5, 3, 1, 0, 2, 2⟩ := by
  refine ⟨(gameConfig_validation 5 3 1 0 2 2).1.mpr (by decide), ?_⟩
  exact (gameConfig_validation 5 3 1 0 2 2).2 _ (by rfl)

/-- C6 counterexample: the claim says `llost <= beaten` is rejected
*including the equality case*, but construction with `llost = beaten = 1`
succeeds (the source checks `llost >= beaten`). -/
theorem gameConfig_equal_llost_beaten_accepted :
    mkGameConfig 5 3 1 1 2 2 = .ok ⟨5, 3, 1, 1, 2, 2⟩ := by rfl

/-- C6 (amended): construction with `llost < beaten` is rejected, and
construction with `beat <= wwin` is rejected (including equality). -/
theorem gameConfig_rejections (beat wwin llost beaten rpm nm : Int)
    (h : llost < beaten ∨ beat ≤ wwin) :
    (mkGameConfig beat wwin llost beaten rpm nm).isOk = false := by
  unfold mkGameConfig
  split
  · rfl
  · omega

/-- Witness for C6 (amended) at concrete inputs. -/
theorem gameConfig_rejections_witness :
    ((1 : Int) < 2 ∨ (5 : Int) ≤ 3) ∧
      (mkGameConfig 5 3 1 2 2 2).isOk = false :=
  ⟨Or.inl (by decide), gameConfig_rejections 5 3 1 2 2 2 (Or.inl (by decide))⟩

/-! ## MatchResult (match.py) -/

structure MatchResult where
  scores_a : List Int
  scores_b : List Int
  histories_a : List (List String)
  histories_b : List (List String)
deriving DecidableEq, Repr

/-- Embedding of `MatchResult.add_match`. -/
def MatchResult.add_match (r : MatchResult) (score_a score_b : Int)
    (history_a history_b : List String) : MatchResult :=
  ⟨r.scores_a ++ [score_a], r.scores_b ++ [score_b],
    r.histories_a ++ [history_a], r.histories_b ++ [history_b]⟩

/-- Embedding of `MatchResult.get_avg_scores` (Python float division over ℚ;
the `if self.scores_a else 0` guard becomes the emptiness test). -/
def MatchResult.get_avg_scores (r : MatchResult) : ℚ × ℚ :=
  (if r.scores_a.isEmpty then 0 else ((r.scores_a.sum : Int) : ℚ) / r.scores_a.length,
   if r.scores_b.isEmpty then 0 else ((r.scores_b.sum : Int) : ℚ) / r.scores_b.length)

/-- Embedding of `MatchResult.get_min_scores` (`min(l) if l else 0`). -/
def MatchResult.get_min_scores (r : MatchResult) : Int × Int :=
  ((r.scores_a.min?).getD 0, (r.scores_b.min?).getD 0)

/-- Embedding of `MatchResult.get_middle_scores`
(`sorted(l)[len(l) // 2] if l else 0`). -/
def MatchResult.get_middle_scores (r : MatchResult) : Int × Int :=
  (let s := List.insertionSort (· ≤ ·) r.scores_a
   if s.isEmpty then 0 else s.getD (s.length / 2) 0,
   let s := List.insertionSort (· ≤ ·) r.scores_b
   if s.isEmpty then 0 else s.getD (s.length / 2) 0)

/-- C10: on a `MatchResult` with no recorded matches, the three accessors
are total and each returns `(0, 0)` instead of raising. -/
theorem matchResult_empty_accessors_total :
    (MatchResult.mk [] [] [] []).get_avg_scores = (0, 0) ∧
    (MatchResult.mk [] [] [] []).get_min_scores = (0, 0) ∧
    (MatchResult.mk [] [] [] []).get_middle_scores = (0, 0) := by
  refine ⟨?_, by decide, by decide⟩
  simp [MatchResult.get_avg_scores]

/-! ## Agents (agent.py)

A Python agent object is a name plus mutable private state with a
`decide`/`reset` interface; `decide` may mutate the state (several
strategies do), so it is embedded in explicit state-passing style. -/

structure Agent where
  name : String
  State : Type
  state : State
  decide : State → List String → List String → String × State
  reset : State → State

/-- Placeholder used only as the out-of-bounds default of list indexing
(the tournament loop only produces in-bounds indices). -/
def dummyAgent : Agent :=
  { name := "", State := Unit, state := (), decide := fun s _ _ => ("", s),
    reset := fun s => s }

instance : Inhabited Agent := ⟨dummyAgent⟩

/-- `TitForTatAgent`: `still` on round one, afterwards a copy of the
opponent's previous action. -/
def titForTatAgent : Agent :=
  { name := "TitForTatAgent", State := Unit, state := (),
    decide := fun s _ ho =>
      (match ho.getLast? with
        | none => "still"
        | some a => a, s),
    reset := fun s => s }

/-- `AlwaysBeatAgent`: always returns `beat`. -/
def alwaysBeatAgent : Agent :=
  { name := "AlwaysBeatAgent", State := Unit, state := (),
    decide := fun s _ _ => ("beat", s), reset := fun s => s }

/-- `AlwaysStillAgent`: always returns `still`. -/
def alwaysStillAgent : Agent :=
  { name := "AlwaysStillAgent", State := Unit, state := (),
    decide := fun s _ _ => ("still", s), reset := fun s => s }

/-- `TwoCoopOneDefectAgent`: keeps a counter, starts at 0, `decide` first
sets `counter = (counter + 1) % 3` and returns `still` when `counter < 2`,
else `beat`; `reset` puts the counter back to 0. -/
def twoCoopOneDefectAgent : Agent :=
  { name := "TwoCoopOneDefectAgent", State := Nat, state := 0,
    decide := fun c _ _ =>
      (if (c + 1) % 3 < 2 then "still" else "beat", (c + 1) % 3),
    reset := fun _ => 0 }

/-! ## Match engine (match.py) -/

/-- An action is legal when it is `beat` or `still`
(`action in ["beat", "still"]`). -/
def validAction (a : String) : Bool :=
  a == "beat" || a == "still"

/-- Embedding of `Match._calculate_reward`. -/
def calcReward (cfg : GameConfig) (action_a action_b : String) : Int × Int :=
  if action_a == "beat" && action_b == "beat" then (cfg.llost, cfg.llost)
  else if action_a == "still" && action_b == "still" then (cfg.wwin, cfg.wwin)
  else if action_a == "beat" && action_b == "still" then (cfg.beat, cfg.beaten)
  else (cfg.beaten, cfg.beat)

/-- The `ValueError` text raised on an illegal action. -/
def illegalActionMsg (action_a action_b : String) : String :=
  "智能体只能返回 beat 或 still，而不是 A=" ++ action_a ++ ", B=" ++ action_b

/-- The round loop of `Match._run_single_match`: each round asks both
agents (own history first), validates both actions before anything is
appended or scored, raises on an illegal action, otherwise applies the
payoff table, appends both actions and accumulates both totals. -/
def runRounds (cfg : GameConfig) (A B : Agent) :
    Nat → A.State → B.State → List String → List String → Int → Int →
    Except String (Int × Int × List String × List String × A.State × B.State)
  | 0, sa, sb, ha, hb, ta, tb => .ok (ta, tb, ha, hb, sa, sb)
  | n + 1, sa, sb, ha, hb, ta, tb =>
    let da := A.decide sa ha hb
    let db := B.decide sb hb ha
    if validAction da.1 && validAction db.1 then
      let r := calcReward cfg da.1 db.1
      runRounds cfg A B n da.2 db.2 (ha ++ [da.1]) (hb ++ [db.1])
        (ta + r.1) (tb + r.2)
    else
      .error (illegalActionMsg da.1 db.1)

/-- Embedding of `Match._run_single_match` (fresh histories and totals). -/
def runSingleMatch (cfg : GameConfig) (A B : Agent)
    (sa : A.State) (sb : B.State) :
    Except String (Int × Int × List String × List String × A.State × B.State) :=
  runRounds cfg A B cfg.rounds_per_match.toNat sa sb [] [] 0 0

/-- The match loop of `Match.run`: before every single match both agents
are reset, then the single match runs and its totals and histories are
appended to the accumulating `MatchResult`. -/
def matchGo (cfg : GameConfig) (A B : Agent) :
    Nat → A.State → B.State → MatchResult →
    Except String (MatchResult × A.State × B.State)
  | 0, sa, sb, r => .ok (r, sa, sb)
  | n + 1, sa, sb, r =>
    match runSingleMatch cfg A B (A.reset sa) (B.reset sb) with
    | .error e => .error e
    | .ok (ta, tb, ha, hb, sa', sb') =>
      matchGo cfg A B n sa' sb' (r.add_match ta tb ha hb)

/-- Embedding of `Match.run`: `num_matches` single matches starting from an
empty `MatchResult`; an in-flight `ValueError` propagates, so no (partial)
`MatchResult` reaches the caller in that case. -/
def matchRun (cfg : GameConfig) (A B : Agent) :
    Except String (MatchResult × Agent × Agent) :=
  match matchGo cfg A B cfg.num_matches.toNat A.state B.state ⟨[], [], [], []⟩ with
  | .error e => .error e
  | .ok (r, sa, sb) => .ok (r, { A with state := sa }, { B with state := sb })

/-! ### Step lemmas for the round loop -/

theorem runRounds_step_valid {cfg : GameConfig} {A B : Agent} {sa : A.State}
    {sb : B.State} {ha hb : List String} {ta tb : Int} (n : Nat)
    (aa ab : String) (sa2 : A.State) (sb2 : B.State)
    (hA : A.decide sa ha hb = (aa, sa2)) (hB : B.decide sb hb ha = (ab, sb2))
    (hva : validAction aa = true) (hvb : validAction ab = true) :
    runRounds cfg A B (n + 1) sa sb ha hb ta tb =
      runRounds cfg A B n sa2 sb2 (ha ++ [aa]) (hb ++ [ab])
        (ta + (calcReward cfg aa ab).1) (tb + (calcReward cfg aa ab).2) := by
  rw [runRounds]
  simp only [hA, hB, hva, hvb, Bool.and_self, if_true]

theorem runRounds_step_invalid {cfg : GameConfig} {A B : Agent} {sa : A.State}
    {sb : B.State} {ha hb : List String} {ta tb : Int} (n : Nat)
    (aa ab : String) (sa2 : A.State) (sb2 : B.State)
    (hA : A.decide sa ha hb = (aa, sa2)) (hB : B.decide sb hb ha = (ab, sb2))
    (hinv : (validAction aa && validAction ab) = false) :
    runRounds cfg A B (n + 1) sa sb ha hb ta tb =
      .error (illegalActionMsg aa ab) := by
  rw [runRounds]
  simp only [hA, hB, hinv, Bool.false_eq_true, if_false]

/-! ## C2: TwoCoopOneDefect actually plays still, beat, still -/

/-- C2 (evaluation at the failing input): because `decide` increments the
counter **before** testing it, a fresh `TwoCoopOneDefectAgent` plays
`still, beat, still, still, beat, still` over six rounds — it defects on
round 2 (not a multiple of 3) and cooperates on round 3 — contradicting
both the claim and the agent's own docstring (cooperate twice, then
defect once). -/
theorem twoCoopOneDefect_defects_on_round_two :
    runSingleMatch ⟨5, 3, 1, 0, 6, 1⟩ twoCoopOneDefectAgent alwaysStillAgent
        twoCoopOneDefectAgent.state alwaysStillAgent.state =
      .ok (22, 12, ["still", "beat", "still", "still", "beat", "still"],
        ["still", "still", "still", "still", "still", "still"],
        twoCoopOneDefectAgent.state, alwaysStillAgent.state) := by
  rfl

/-! ## C8: TitForTat vs AlwaysBeat -/

theorem runRounds_tft_beat_tail (R M : Int) (n : Nat) :
    ∀ (ha hb : List String) (ta tb : Int), hb.getLast? = some "beat" →
    runRounds ⟨5, 3, 1, 0, R, M⟩ titForTatAgent alwaysBeatAgent n () () ha hb ta tb =
      .ok (ta + n, tb + n, ha ++ List.replicate n "beat",
        hb ++ List.replicate n "beat", (), ()) := by
  induction n with
  | zero => intro ha hb ta tb _; simp [runRounds]
  | succ n ih =>
    intro ha hb ta tb hlast
    rw [runRounds_step_valid n "beat" "beat" () ()
      (by simp [titForTatAgent, hlast]) rfl rfl rfl]
    have hcr : calcReward ⟨5, 3, 1, 0, R, M⟩ "beat" "beat" = (1, 1) := rfl
    rw [hcr]
    rw [ih (ha ++ ["beat"]) (hb ++ ["beat"]) (ta + 1) (tb + 1)
      (by simp [List.getLast?_concat])]
    simp only [Except.ok.injEq, Prod.mk.injEq, and_true]
    refine ⟨by push_cast; ring, by push_cast; ring, ?_, ?_⟩ <;>
      simp [List.replicate_succ, List.append_assoc]

/-- C8: with payoffs `(beat, wwin, llost, beaten) = (5, 3, 1, 0)` and
`R >= 1` rounds, a single match of TitForTat (A) against AlwaysBeat (B)
gives TitForTat `beaten + (R-1)*llost = 0 + (R-1)*1` and AlwaysBeat
`beat + (R-1)*llost = 5 + (R-1)*1`: TitForTat cooperates on round 1 and
defects on every later round. -/
theorem titForTat_vs_alwaysBeat_single_match (R : Nat) (M : Int) (h : 1 ≤ R) :
    runSingleMatch ⟨5, 3, 1, 0, (R : Int), M⟩ titForTatAgent alwaysBeatAgent () () =
      .ok (0 + ((R : Int) - 1) * 1, 5 + ((R : Int) - 1) * 1,
        "still" :: List.replicate (R - 1) "beat",
        List.replicate R "beat", (), ()) := by
  obtain ⟨n, rfl⟩ : ∃ n, R = n + 1 := ⟨R - 1, by omega⟩
  unfold runSingleMatch
  have hR : (((n + 1 : Nat) : Int)).toNat = n + 1 := by simp
  rw [hR]
  rw [runRounds_step_valid n "still" "beat" () ()
      (by simp [titForTatAgent]) rfl rfl rfl]
  have hcr : calcReward ⟨5, 3, 1, 0, ((n + 1 : Nat) : Int), M⟩ "still" "beat" = (0, 5) := rfl
  rw [hcr]
  norm_num
  rw [runRounds_tft_beat_tail _ _ n ["still"] ["beat"] 0 5 (by simp)]
  simp [List.replicate_succ]

/-- Witness for C8 at `R = 3`. -/
theorem titForTat_vs_alwaysBeat_witness :
    1 ≤ 3 ∧
    runSingleMatch ⟨5, 3, 1, 0, (3 : Int), 1⟩ titForTatAgent alwaysBeatAgent () () =
      .ok (0 + ((3 : Int) - 1) * 1, 5 + ((3 : Int) - 1) * 1,
        "still" :: List.replicate 2 "beat", List.replicate 3 "beat", (), ()) :=
  ⟨by omega, titForTat_vs_alwaysBeat_single_match 3 1 (by omega)⟩

/-! ## C7: result-shape invariants of `Match.run` -/

theorem runRounds_ok_lengths {cfg : GameConfig} {A B : Agent} :
    ∀ (n : Nat) (sa : A.State) (sb : B.State) (ha hb : List String)
      (ta tb : Int) out,
      runRounds cfg A B n sa sb ha hb ta tb = .ok out →
      out.2.2.1.length = ha.length + n ∧ out.2.2.2.1.length = hb.length + n := by
  intro n
  induction n with
  | zero =>
    intro sa sb ha hb ta tb out h
    rw [runRounds] at h
    cases h
    exact show ha.length = ha.length + 0 ∧ hb.length = hb.length + 0 from
      ⟨by omega, by omega⟩
  | succ n ih =>
    intro sa sb ha hb ta tb out h
    rw [runRounds] at h
    split at h
    · obtain ⟨h1, h2⟩ := ih _ _ _ _ _ _ _ h
      simp only [List.length_append, List.length_cons, List.length_nil] at h1 h2
      omega
    · cases h

theorem matchGo_ok_shape {cfg : GameConfig} {A B : Agent} :
    ∀ (n : Nat) (sa : A.State) (sb : B.State) (r : MatchResult) out,
      matchGo cfg A B n sa sb r = .ok out →
      out.1.scores_a.length = r.scores_a.length + n ∧
      out.1.scores_b.length = r.scores_b.length + n ∧
      out.1.histories_a.length = r.histories_a.length + n ∧
      out.1.histories_b.length = r.histories_b.length + n ∧
      (∀ hh ∈ out.1.histories_a,
        hh ∈ r.histories_a ∨ hh.length = cfg.rounds_per_match.toNat) ∧
      (∀ hh ∈ out.1.histories_b,
        hh ∈ r.histories_b ∨ hh.length = cfg.rounds_per_match.toNat) := by
  intro n
  induction n with
  | zero =>
    intro sa sb r out h
    rw [matchGo] at h
    cases h
    exact ⟨by simp, by simp, by simp, by simp,
      fun hh hmem => Or.inl hmem, fun hh hmem => Or.inl hmem⟩
  | succ n ih =>
    intro sa sb r out h
    rw [matchGo] at h
    cases hrun : runSingleMatch cfg A B (A.reset sa) (B.reset sb) with
    | error e => rw [hrun] at h; cases h
    | ok t =>
      obtain ⟨ta, tb, ha, hb, sa', sb'⟩ := t
      rw [hrun] at h
      have hlen := runRounds_ok_lengths _ _ _ _ _ _ _ _ hrun
      simp only [List.length_nil, Nat.zero_add] at hlen
      have := ih _ _ _ _ h
      simp only [MatchResult.add_match, List.length_append, List.length_cons,
        List.length_nil] at this
      obtain ⟨h1, h2, h3, h4, h5, h6⟩ := this
      refine ⟨by omega, by omega, by omega, by omega, ?_, ?_⟩
      · intro hh hmem
        rcases h5 hh hmem with hmem2 | hlen2
        · rcases List.mem_append.mp hmem2 with hm | hm
          · exact Or.inl hm
          · right
            rw [List.mem_singleton.mp hm]
            exact hlen.1
        · exact Or.inr hlen2
      · intro hh hmem
        rcases h6 hh hmem with hmem2 | hlen2
        · rcases List.mem_append.mp hmem2 with hm | hm
          · exact Or.inl hm
          · right
            rw [List.mem_singleton.mp hm]
            exact hlen.2
        · exact Or.inr hlen2

/-- C7: whenever `Match.run` returns a `MatchResult`, all four of its lists
have length `num_matches`, and every stored per-match history has length
exactly `rounds_per_match`. -/
theorem matchRun_result_shape (cfg : GameConfig) (A B : Agent)
    (r : MatchResult) (A2 B2 : Agent) (hv : cfg.Valid)
    (h : matchRun cfg A B = .ok (r, A2, B2)) :
    r.scores_a.length = cfg.num_matches.toNat ∧
    r.scores_b.length = cfg.num_matches.toNat ∧
    r.histories_a.length = cfg.num_matches.toNat ∧
    r.histories_b.length = cfg.num_matches.toNat ∧
    (∀ hh ∈ r.histories_a, hh.length = cfg.rounds_per_match.toNat) ∧
    (∀ hh ∈ r.histories_b, hh.length = cfg.rounds_per_match.toNat) := by
  unfold matchRun at h
  cases hm : matchGo cfg A B cfg.num_matches.toNat A.state B.state ⟨[], [], [], []⟩ with
  | error e => rw [hm] at h; cases h
  | ok out =>
    rw [hm] at h
    obtain ⟨r0, sa, sb⟩ := out
    cases h
    have := matchGo_ok_shape _ _ _ _ _ hm
    simp only [List.length_nil, Nat.zero_add] at this
    obtain ⟨h1, h2, h3, h4, h5, h6⟩ := this
    refine ⟨h1, h2, h3, h4, ?_, ?_⟩
    · intro hh hmem
      rcases h5 hh hmem with hm2 | hl
      · cases hm2
      · exact hl
    · intro hh hmem
      rcases h6 hh hmem with hm2 | hl
      · cases hm2
      · exact hl

/-- Witness for C7: TitForTat against AlwaysBeat, two matches of two
rounds each. -/
theorem matchRun_result_shape_witness :
    GameConfig.Valid ⟨5, 3, 1, 0, 2, 2⟩ ∧
    (([0, 0] : List Int).length = (2 : Int).toNat ∧
     ([10, 10] : List Int).length = (2 : Int).toNat ∧
     ([["still", "still"], ["still", "still"]] : List (List String)).length = (2 : Int).toNat ∧
     ([["beat", "beat"], ["beat", "beat"]] : List (List String)).length = (2 : Int).toNat ∧
     (∀ hh ∈ ([["still", "still"], ["still", "still"]] : List (List String)),
        hh.length = (2 : Int).toNat) ∧
     (∀ hh ∈ ([["beat", "beat"], ["beat", "beat"]] : List (List String)),
        hh.length = (2 : Int).toNat)) :=
  ⟨by decide,
    matchRun_result_shape ⟨5, 3, 1, 0, 2, 2⟩ alwaysStillAgent alwaysBeatAgent
      ⟨[0, 0], [10, 10], [["still", "still"], ["still", "still"]],
        [["beat", "beat"], ["beat", "beat"]]⟩
      alwaysStillAgent alwaysBeatAgent (by decide) rfl⟩

/-! ## C4: `Match.run` raises exactly on an illegal action -/

/-- Specification-side mirror of the round loop that only tracks whether
every executed round produced legal actions (`none` exactly when some
reached round had an agent return a value outside `{beat, still}`), and
the two agent states after a fully legal match. -/
def roundsOutcome (A B : Agent) :
    Nat → A.State → B.State → List String → List String →
    Option (A.State × B.State)
  | 0, sa, sb, _, _ => some (sa, sb)
  | n + 1, sa, sb, ha, hb =>
    let da := A.decide sa ha hb
    let db := B.decide sb hb ha
    if validAction da.1 && validAction db.1 then
      roundsOutcome A B n da.2 db.2 (ha ++ [da.1]) (hb ++ [db.1])
    else
      none

/-- Specification-side predicate: some round of some executed single match
of the pair-run had an agent return an illegal action. -/
def matchViolation (cfg : GameConfig) (A B : Agent) :
    Nat → A.State → B.State → Bool
  | 0, _, _ => false
  | n + 1, sa, sb =>
    match roundsOutcome A B cfg.rounds_per_match.toNat
        (A.reset sa) (B.reset sb) [] [] with
    | none => true
    | some p => matchViolation cfg A B n p.1 p.2

theorem runRounds_outcome_spec {cfg : GameConfig} {A B : Agent} :
    ∀ (n : Nat) (sa : A.State) (sb : B.State) (ha hb : List String)
      (ta tb : Int),
      (roundsOutcome A B n sa sb ha hb = none →
        ∃ e, runRounds cfg A B n sa sb ha hb ta tb = .error e) ∧
      (∀ p, roundsOutcome A B n sa sb ha hb = some p →
        ∃ ta2 tb2 ha2 hb2,
          runRounds cfg A B n sa sb ha hb ta tb = .ok (ta2, tb2, ha2, hb2, p.1, p.2)) := by
  intro n
  induction n with
  | zero =>
    intro sa sb ha hb ta tb
    constructor
    · intro h
      rw [roundsOutcome] at h
      cases h
    · intro p h
      rw [roundsOutcome] at h
      cases h
      exact ⟨ta, tb, ha, hb, rfl⟩
  | succ n ih =>
    intro sa sb ha hb ta tb
    constructor
    · intro h
      rw [roundsOutcome] at h
      rw [runRounds]
      split at h
      · next hc =>
        simp only [hc, if_true]
        exact (ih _ _ _ _ _ _).1 h
      · next hc =>
        simp only [Bool.not_eq_true] at hc
        simp only [hc, Bool.false_eq_true, if_false]
        exact ⟨_, rfl⟩
    · intro p h
      rw [roundsOutcome] at h
      rw [runRounds]
      split at h
      · next hc =>
        simp only [hc, if_true]
        exact (ih _ _ _ _ _ _).2 p h
      · cases h

theorem matchGo_violation_spec {cfg : GameConfig} {A B : Agent} :
    ∀ (n : Nat) (sa : A.State) (sb : B.State) (r : MatchResult),
      (matchGo cfg A B n sa sb r).isOk = ! matchViolation cfg A B n sa sb := by
  intro n
  induction n with
  | zero => intro sa sb r; rfl
  | succ n ih =>
    intro sa sb r
    rw [matchGo, matchViolation]
    cases ho : roundsOutcome A B cfg.rounds_per_match.toNat
        (A.reset sa) (B.reset sb) [] [] with
    | none =>
      obtain ⟨e, he⟩ := (runRounds_outcome_spec cfg.rounds_per_match.toNat
        (A.reset sa) (B.reset sb) [] [] 0 0).1 ho
      rw [show runSingleMatch cfg A B (A.reset sa) (B.reset sb) =
        runRounds cfg A B cfg.rounds_per_match.toNat (A.reset sa) (B.reset sb)
          [] [] 0 0 from rfl, he]
      rfl
    | some p =>
      obtain ⟨ta2, tb2, ha2, hb2, he⟩ := (runRounds_outcome_spec
        cfg.rounds_per_match.toNat (A.reset sa) (B.reset sb) [] [] 0 0).2 p ho
      rw [show runSingleMatch cfg A B (A.reset sa) (B.reset sb) =
        runRounds cfg A B cfg.rounds_per_match.toNat (A.reset sa) (B.reset sb)
          [] [] 0 0 from rfl, he]
      exact ih p.1 p.2 _

/-- C4: `Match.run` raises a `ValueError` if and only if some round of the
executed pair-run had an agent's `decide` return a value outside
`{beat, still}`; the raise is checked before the offending action is
appended or scored, and because the error propagates, no `MatchResult`
(not even a partial one) is returned to the caller in that case. -/
theorem matchRun_error_iff_illegal_action (cfg : GameConfig) (A B : Agent) :
    (∃ e, matchRun cfg A B = .error e) ↔
      matchViolation cfg A B cfg.num_matches.toNat A.state B.state = true := by
  have h := @matchGo_violation_spec cfg A B
    cfg.num_matches.toNat A.state B.state ⟨[], [], [], []⟩
  unfold matchRun
  cases hm : matchGo cfg A B cfg.num_matches.toNat A.state B.state ⟨[], [], [], []⟩ with
  | error e =>
    rw [hm] at h
    have hx : matchViolation cfg A B cfg.num_matches.toNat A.state B.state = true := by
      simpa using h.symm
    simp [hx]
  | ok out =>
    rw [hm] at h
    have hx : matchViolation cfg A B cfg.num_matches.toNat A.state B.state = false := by
      simpa using h.symm
    obtain ⟨r0, sa, sb⟩ := out
    simp [hx]

/-! ## HybridAgent (agent.py) -/

/-- Python slice `l[-n:]`. -/
def pyLastN (n : Nat) (l : List α) : List α :=
  l.drop (l.length - n)

/-- The three candidate strategies of `HybridAgent.strategies`, in Python
dict (insertion) order: tit_for_tat, always_beat, always_still. -/
inductive StratName
  | tft
  | ab
  | as
deriving DecidableEq, Repr

/-- The candidate strategy lambdas held in `HybridAgent.strategies`. -/
def stratFun : StratName → List String → List String → String
  | .tft, _, ho =>
    match ho.getLast? with
    | none => "still"
    | some a => a
  | .ab, _, _ => "beat"
  | .as, _, _ => "still"

/-- Per-round retrospective score used by `_evaluate_strategies`: the
source hardcodes `3` ("假设wwin=3"), `5` ("假设beat=5"), `-2`
("假设beaten=-2") and `1` ("假设llost=1") instead of reading the config. -/
def hybridRoundScore (action oppA : String) : Int :=
  if action == "still" && oppA == "still" then 3
  else if action == "beat" && oppA == "still" then 5
  else if action == "still" && oppA == "beat" then -2
  else 1

/-- The 10-round retrospective scoring loop of `_evaluate_strategies` for
one candidate strategy: at `i = 0` the simulated action is `still` when
`len(history_opponent) <= 10` and otherwise the strategy applied to the
(always empty) slices `history[-10:-10]`; at `i > 0` the strategy sees the
first `i` entries of the last-10 windows; each simulated action is scored
against the opponent's actual action `recent_opponent[i]`. -/
def hybridEvalScore (f : List String → List String → String)
    (hSelf hOpp : List String) : Int :=
  (List.range 10).foldl (fun score i =>
    let action :=
      if i = 0 then
        if hOpp.length ≤ 10 then "still" else f [] []
      else f ((pyLastN 10 hSelf).take i) ((pyLastN 10 hOpp).take i)
    score + hybridRoundScore action ((pyLastN 10 hOpp).getD i "")) 0

/-- Modelled from the spec (the claim's reading, for comparison with the
source): the same retrospective scoring but using the *configured* payoff
values `beat`/`wwin`/`llost`/`beaten` of the payoff table. -/
def hybridRoundScoreCfg (cfg : GameConfig) (action oppA : String) : Int :=
  if action == "still" && oppA == "still" then cfg.wwin
  else if action == "beat" && oppA == "still" then cfg.beat
  else if action == "still" && oppA == "beat" then cfg.beaten
  else cfg.llost

/-- Modelled from the spec: `hybridEvalScore` with the configured payoff
table instead of the hardcoded constants. -/
def hybridEvalScoreCfg (cfg : GameConfig) (f : List String → List String → String)
    (hSelf hOpp : List String) : Int :=
  (List.range 10).foldl (fun score i =>
    let action :=
      if i = 0 then
        if hOpp.length ≤ 10 then "still" else f [] []
      else f ((pyLastN 10 hSelf).take i) ((pyLastN 10 hOpp).take i)
    score + hybridRoundScoreCfg cfg action ((pyLastN 10 hOpp).getD i "")) 0

/-- Mutable fields of a `HybridAgent` (current strategy, the three
performance scores, round counter, last re-evaluation round). -/
structure HybridState where
  current : StratName
  perf_tft : Int
  perf_ab : Int
  perf_as : Int
  rounds : Int
  last_switch : Int
deriving DecidableEq, Repr

def hybridInit : HybridState :=
  ⟨.tft, 0, 0, 0, 0, 0⟩

/-- Embedding of `HybridAgent._evaluate_strategies`: keeps the state
unchanged on fewer than 10 opponent moves, otherwise stores the three
retrospective scores and switches to the first candidate attaining the
maximum (Python `max` over dict items keeps the first maximal entry). -/
def evaluateStrategies (st : HybridState) (hSelf hOpp : List String) :
    HybridState :=
  if hOpp.length < 10 then st
  else
    let ptft := hybridEvalScore (stratFun .tft) hSelf hOpp
    let pab := hybridEvalScore (stratFun .ab) hSelf hOpp
    let pas := hybridEvalScore (stratFun .as) hSelf hOpp
    let best1 := if pab > ptft then StratName.ab else StratName.tft
    let pbest1 := if pab > ptft then pab else ptft
    let best := if pas > pbest1 then StratName.as else best1
    { st with current := best, perf_tft := ptft, perf_ab := pab, perf_as := pas }

/-- Embedding of `HybridAgent.decide`: increments the round counter,
re-evaluates when at least 10 rounds passed since the last switch (and
unconditionally stamps `last_switch` in that case), then plays the
currently selected candidate strategy. -/
def hybridDecide (st : HybridState) (hSelf hOpp : List String) :
    String × HybridState :=
  let st1 : HybridState := { st with rounds := st.rounds + 1 }
  let st2 :=
    if st1.rounds - st1.last_switch ≥ 10 then
      { evaluateStrategies st1 hSelf hOpp with last_switch := st1.rounds }
    else st1
  (stratFun st2.current hSelf hOpp, st2)

def hybridAgent : Agent :=
  { name := "HybridAgent", State := HybridState, state := hybridInit,
    decide := fun st hs ho => hybridDecide st hs ho,
    reset := fun _ => hybridInit }

/-- C3 counterexample: the claim says the re-evaluation scores candidates
"using the payoff table (the configured payoff values)"; with the standard
config `(5, 3, 1, 0)` and an opponent who defected the last 10 rounds, the
code assigns always-cooperate a score of `-20` (hardcoded `beaten = -2`)
while the configured payoff table gives `0` (`beaten = 0`). -/
theorem hybrid_eval_not_configured_payoffs :
    (evaluateStrategies hybridInit (List.replicate 10 "still")
        (List.replicate 10 "beat")).perf_as ≠
      hybridEvalScoreCfg ⟨5, 3, 1, 0, 10, 10⟩ (stratFun .as)
        (List.replicate 10 "still") (List.replicate 10 "beat") := by
  decide

theorem hybrid_best_is_max (x y z : Int) (c : StratName) :
    (match c with | .tft => x | .ab => y | .as => z) ≤
      (match (if z > (if y > x then y else x) then StratName.as
          else if y > x then StratName.ab else StratName.tft) with
        | .tft => x | .ab => y | .as => z) := by
  cases c <;> by_cases h1 : y > x <;>
    by_cases h2 : z > (if y > x then y else x) <;>
      simp only [h1, h2, if_true, if_false, if_pos, if_neg, not_false_iff] <;>
        split_ifs <;> simp <;> omega

/-- C3 (amended): every time the Hybrid agent re-evaluates (10 or more
rounds since the last switch and at least 10 opponent moves), it stores
for each candidate in {tit-for-tat, always-defect, always-cooperate} its
retrospective score against the last 10 actual opponent actions computed
with the *hardcoded* payoffs (3 mutual-coop, 5 defect-win, -2
cooperate-loss, 1 mutual-defect), and switches to a candidate of maximal
such score; when it does not re-evaluate (or has fewer than 10 opponent
moves), the selected candidate is unchanged, and the action played is
always the selected candidate applied to the current histories. -/
theorem hybrid_reevaluation (st : HybridState) (hSelf hOpp : List String) :
    (st.rounds + 1 - st.last_switch ≥ 10 → 10 ≤ hOpp.length →
      ((hybridDecide st hSelf hOpp).2.perf_tft =
          hybridEvalScore (stratFun .tft) hSelf hOpp ∧
        (hybridDecide st hSelf hOpp).2.perf_ab =
          hybridEvalScore (stratFun .ab) hSelf hOpp ∧
        (hybridDecide st hSelf hOpp).2.perf_as =
          hybridEvalScore (stratFun .as) hSelf hOpp) ∧
      ∀ c : StratName,
        hybridEvalScore (stratFun c) hSelf hOpp ≤
          hybridEvalScore (stratFun (hybridDecide st hSelf hOpp).2.current)
            hSelf hOpp) ∧
    (st.rounds + 1 - st.last_switch ≥ 10 → hOpp.length < 10 →
      (hybridDecide st hSelf hOpp).2.current = st.current) ∧
    (¬ st.rounds + 1 - st.last_switch ≥ 10 →
      (hybridDecide st hSelf hOpp).2.current = st.current) ∧
    (hybridDecide st hSelf hOpp).1 =
      stratFun (hybridDecide st hSelf hOpp).2.current hSelf hOpp := by
  by_cases hcond : st.rounds + 1 - st.last_switch ≥ 10
  · by_cases hlen : hOpp.length < 10
    · refine ⟨?_, ?_, ?_, rfl⟩
      · intro _ h2
        exact absurd h2 (by omega)
      · intro _ _
        simp [hybridDecide, evaluateStrategies, hcond, hlen]
      · intro hn
        exact absurd hcond hn
    · refine ⟨?_, ?_, ?_, rfl⟩
      · intro _ _
        constructor
        · refine ⟨?_, ?_, ?_⟩ <;>
            simp [hybridDecide, evaluateStrategies, hcond, hlen]
        · intro c
          have hmain : (hybridDecide st hSelf hOpp).2.current =
              (if hybridEvalScore (stratFun .as) hSelf hOpp >
                  (if hybridEvalScore (stratFun .ab) hSelf hOpp >
                      hybridEvalScore (stratFun .tft) hSelf hOpp then
                    hybridEvalScore (stratFun .ab) hSelf hOpp
                  else hybridEvalScore (stratFun .tft) hSelf hOpp) then
                StratName.as
              else if hybridEvalScore (stratFun .ab) hSelf hOpp >
                  hybridEvalScore (stratFun .tft) hSelf hOpp then StratName.ab
              else StratName.tft) := by
            simp [hybridDecide, evaluateStrategies, hcond, hlen]
          rw [hmain]
          have hb := hybrid_best_is_max
            (hybridEvalScore (stratFun .tft) hSelf hOpp)
            (hybridEvalScore (stratFun .ab) hSelf hOpp)
            (hybridEvalScore (stratFun .as) hSelf hOpp) c
          refine le_trans (le_of_eq ?_) (le_trans hb (le_of_eq ?_))
          · cases c <;> rfl
          · split_ifs <;> rfl
      · intro _ h2
        exact absurd h2 hlen
      · intro hn
        exact absurd hcond hn
  · refine ⟨?_, ?_, ?_, rfl⟩
    · intro h _
      exact absurd h hcond
    · intro h _
      exact absurd h hcond
    · intro _
      simp [hybridDecide, hcond]

/-- Witness for C3 (amended): re-evaluation after rounds 1..10 against an
always-defecting opponent. -/
theorem hybrid_reevaluation_witness :
    ((⟨.tft, 0, 0, 0, 9, 0⟩ : HybridState).rounds + 1 -
        (⟨.tft, 0, 0, 0, 9, 0⟩ : HybridState).last_switch ≥ 10 →
      10 ≤ (List.replicate 10 "beat").length →
      ((hybridDecide ⟨.tft, 0, 0, 0, 9, 0⟩ (List.replicate 10 "still")
          (List.replicate 10 "beat")).2.perf_tft =
          hybridEvalScore (stratFun .tft) (List.replicate 10 "still")
            (List.replicate 10 "beat") ∧
        (hybridDecide ⟨.tft, 0, 0, 0, 9, 0⟩ (List.replicate 10 "still")
          (List.replicate 10 "beat")).2.perf_ab =
          hybridEvalScore (stratFun .ab) (List.replicate 10 "still")
            (List.replicate 10 "beat") ∧
        (hybridDecide ⟨.tft, 0, 0, 0, 9, 0⟩ (List.replicate 10 "still")
          (List.replicate 10 "beat")).2.perf_as =
          hybridEvalScore (stratFun .as) (List.replicate 10 "still")
            (List.replicate 10 "beat")) ∧
      ∀ c : StratName,
        hybridEvalScore (stratFun c) (List.replicate 10 "still")
            (List.replicate 10 "beat") ≤
          hybridEvalScore
            (stratFun (hybridDecide ⟨.tft, 0, 0, 0, 9, 0⟩
              (List.replicate 10 "still") (List.replicate 10 "beat")).2.current)
            (List.replicate 10 "still") (List.replicate 10 "beat")) ∧
    (10 : Int) ≤ 10 ∧ 10 ≤ (List.replicate 10 "beat").length :=
  ⟨(hybrid_reevaluation ⟨.tft, 0, 0, 0, 9, 0⟩ (List.replicate 10 "still")
      (List.replicate 10 "beat")).1,
    by decide, by simp⟩

/-! ## Tournament name deduplication (tournament.py `_validate_agents`) -/

/-- Association-list model of a Python dict lookup (`k in d` / `d[k]`). -/
def dictFind? (d : List (String × α)) (k : String) : Option α :=
  match d with
  | [] => none
  | p :: rest => if p.1 = k then some p.2 else dictFind? rest k

/-- Association-list model of Python dict assignment `d[k] = v`: an
existing key keeps its position and gets the new value, a fresh key is
appended. -/
def dictSet (d : List (String × α)) (k : String) (v : α) : List (String × α) :=
  if (dictFind? d k).isSome then
    d.map (fun p => if p.1 = k then (k, v) else p)
  else d ++ [(k, v)]

theorem dictFind?_append (d1 d2 : List (String × α)) (x : String) :
    dictFind? (d1 ++ d2) x =
      match dictFind? d1 x with
      | some v => some v
      | none => dictFind? d2 x := by
  induction d1 with
  | nil => simp [dictFind?]
  | cons p rest ih =>
    by_cases h : p.1 = x
    · simp [dictFind?, h]
    · simp [dictFind?, h, ih]

theorem dictFind?_map_update_self (d : List (String × α)) (k : String) (v : α)
    (hs : (dictFind? d k).isSome) :
    dictFind? (d.map (fun p => if p.1 = k then (k, v) else p)) k = some v := by
  induction d with
  | nil => simp [dictFind?] at hs
  | cons p rest ih =>
    by_cases h : p.1 = k
    · simp only [List.map_cons, if_pos h]
      simp [dictFind?]
    · simp only [dictFind?, if_neg h] at hs
      simp only [List.map_cons, if_neg h]
      simp only [dictFind?, if_neg h]
      exact ih hs

theorem dictFind?_map_update_other (d : List (String × α)) (k : String)
    (v : α) (x : String) (hx : ¬ x = k) :
    dictFind? (d.map (fun p => if p.1 = k then (k, v) else p)) x =
      dictFind? d x := by
  induction d with
  | nil => simp [dictFind?]
  | cons p rest ih =>
    by_cases h : p.1 = k
    · simp only [List.map_cons, if_pos h]
      simp only [dictFind?]
      rw [if_neg (fun hkx : k = x => hx hkx.symm),
        if_neg (fun hpx : p.1 = x => hx (h.symm.trans hpx).symm)]
      exact ih
    · simp only [List.map_cons, if_neg h]
      simp only [dictFind?]
      split
      · rfl
      · exact ih

theorem dictFind?_dictSet_self (d : List (String × α)) (k : String) (v : α) :
    dictFind? (dictSet d k v) k = some v := by
  unfold dictSet
  split
  · next hs => exact dictFind?_map_update_self d k v hs
  · next hs =>
    rw [dictFind?_append]
    cases hfind : dictFind? d k with
    | none => simp [dictFind?]
    | some w => rw [hfind] at hs; simp at hs

theorem dictFind?_dictSet_other (d : List (String × α)) (k : String) (v : α)
    (x : String) (hx : ¬ x = k) :
    dictFind? (dictSet d k v) x = dictFind? d x := by
  unfold dictSet
  split
  · exact dictFind?_map_update_other d k v x hx
  · rw [dictFind?_append]
    cases hfind : dictFind? d x with
    | none =>
      have hkx : ¬ k = x := fun hkx => hx hkx.symm
      simp [dictFind?, hkx]
    | some w => rfl

/-- The rename loop of `Tournament._validate_agents`: walking the roster
with a `name_counts` dict, a first occurrence registers count 0 and keeps
its name, a repeat increments its count `c` to `c + 1` and is renamed to
`name_{c + 1}` in place. -/
def renameAgentsGo (counts : List (String × Nat)) : List Agent → List Agent
  | [] => []
  | a :: rest =>
    match dictFind? counts a.name with
    | some c =>
      { a with name := a.name ++ "_" ++ toString (c + 1) } ::
        renameAgentsGo (dictSet counts a.name (c + 1)) rest
    | none => a :: renameAgentsGo (counts ++ [(a.name, 0)]) rest

/-- Embedding of `Tournament._validate_agents` (as invoked by the
constructor): fewer than two agents raise; otherwise, when the names are
not pairwise distinct (`len(names) != len(set(names))`), repeats are
renamed in roster order. -/
def validateAgents (agents : List Agent) : Except String (List Agent) :=
  if agents.length < 2 then .error "至少需要两个智能体才能进行比赛"
  else if (agents.map (fun a => a.name)).Nodup then .ok agents
  else .ok (renameAgentsGo [] agents)

/-- The claim's renaming rule, written from the spec's words: scanning the
names left to right, a name whose value occurred `n > 0` times before gets
the suffix `_n`, and a first occurrence is kept as is. -/
def specRename (seen : List String) : List String → List String
  | [] => []
  | x :: rest =>
    (if seen.count x = 0 then x else x ++ "_" ++ toString (seen.count x)) ::
      specRename (seen ++ [x]) rest

theorem renameAgentsGo_names (rest : List Agent) :
    ∀ (seen : List String) (counts : List (String × Nat)),
      (∀ x, dictFind? counts x =
        if seen.count x = 0 then none else some (seen.count x - 1)) →
      (renameAgentsGo counts rest).map (fun a => a.name) =
        specRename seen (rest.map (fun a => a.name)) := by
  induction rest with
  | nil => intro seen counts _; rfl
  | cons a rest ih =>
    intro seen counts hinv
    rw [renameAgentsGo]
    simp only [List.map_cons]
    rw [specRename]
    cases hfind : dictFind? counts a.name with
    | none =>
      have hcount : seen.count a.name = 0 := by
        by_contra hc
        rw [hinv a.name, if_neg hc] at hfind
        cases hfind
      simp only [List.map_cons]
      rw [if_pos hcount]
      refine congrArg (List.cons a.name) ?_
      refine ih (seen ++ [a.name]) (counts ++ [(a.name, 0)]) ?_
      intro x
      rw [dictFind?_append]
      by_cases hx : x = a.name
      · subst hx
        rw [hfind]
        have hc1 : (seen ++ [a.name]).count a.name = 1 := by
          simp [List.count_append, hcount]
        rw [hc1]
        simp [dictFind?]
      · have hc2 : (seen ++ [a.name]).count x = seen.count x := by
          have : ¬ (a.name = x) := fun h => hx h.symm
          simp [List.count_append, List.count_singleton, this]
        rw [hc2]
        cases hfx : dictFind? counts x with
        | none =>
          have h3 := hinv x
          rw [hfx] at h3
          rw [← h3]
          have hax : ¬ (a.name = x) := fun h => hx h.symm
          simp [dictFind?, hax]
        | some w =>
          have h3 := hinv x
          rw [hfx] at h3
          exact h3
    | some c =>
      have hcnz : ¬ seen.count a.name = 0 := by
        intro hc
        rw [hinv a.name, if_pos hc] at hfind
        cases hfind
      have hc : c = seen.count a.name - 1 := by
        have := hinv a.name
        rw [if_neg hcnz] at this
        rw [hfind] at this
        cases this
        rfl
      have hc1 : c + 1 = seen.count a.name := by omega
      simp only [List.map_cons]
      rw [if_neg hcnz]
      refine congrArg₂ List.cons (by rw [hc1]) ?_
      refine ih (seen ++ [a.name]) (dictSet counts a.name (c + 1)) ?_
      intro x
      by_cases hx : x = a.name
      · subst hx
        rw [dictFind?_dictSet_self]
        have hcnew : (seen ++ [a.name]).count a.name = seen.count a.name + 1 := by
          simp [List.count_append]
        rw [hcnew]
        rw [if_neg (by omega)]
        refine congrArg some ?_
        omega
      · rw [dictFind?_dictSet_other _ _ _ _ hx]
        have hc2 : (seen ++ [a.name]).count x = seen.count x := by
          have : ¬ (a.name = x) := fun h => hx h.symm
          simp [List.count_append, List.count_singleton, this]
        rw [hc2]
        exact hinv x

theorem specRename_nodup (rest : List String) :
    ∀ seen : List String, (seen ++ rest).Nodup → specRename seen rest = rest := by
  induction rest with
  | nil => intro seen _; rfl
  | cons x rest ih =>
    intro seen hn
    have hmem : x ∉ seen := by
      rcases List.nodup_append.mp hn with ⟨_, _, hdisj⟩
      intro hx
      exact hdisj hx (List.mem_cons_self x rest)
    have hcount : seen.count x = 0 := List.count_eq_zero.mpr hmem
    rw [specRename, if_pos hcount]
    refine congrArg (List.cons x) ?_
    refine ih (seen ++ [x]) ?_
    have : seen ++ x :: rest = (seen ++ [x]) ++ rest := by simp
    rw [this] at hn
    exact hn

/-- C9: a roster of at least two agents never makes the constructor's
validation raise, and the resulting roster names follow the deterministic
rule: the first occurrence of a name is kept, and the n-th repeat of a
name becomes `name_n`, in roster order; the rename is applied to the
agent itself. -/
theorem tournament_name_dedup (agents : List Agent)
    (h2 : 2 ≤ agents.length) :
    (validateAgents agents).isOk = true ∧
    ∀ out, validateAgents agents = .ok out →
      out.map (fun a => a.name) =
        specRename [] (agents.map (fun a => a.name)) := by
  unfold validateAgents
  rw [if_neg (by omega)]
  constructor
  · split <;> rfl
  · intro out hout
    split at hout
    · next hnd =>
      cases hout
      rw [specRename_nodup _ [] (by simpa using hnd)]
    · cases hout
      refine renameAgentsGo_names agents [] [] ?_
      intro x
      simp [dictFind?]

/-- Witness for C9: roster `[A, B, A, A]` is renamed to
`[A, B, A_1, A_2]`. -/
theorem tournament_name_dedup_witness :
    (validateAgents
      [{ alwaysStillAgent with name := "A" },
       { alwaysStillAgent with name := "B" },
       { alwaysStillAgent with name := "A" },
       { alwaysStillAgent with name := "A" }]).isOk = true ∧
    (renameAgentsGo []
      [{ alwaysStillAgent with name := "A" },
       { alwaysStillAgent with name := "B" },
       { alwaysStillAgent with name := "A" },
       { alwaysStillAgent with name := "A" }]).map (fun a => a.name) =
      ["A", "B", "A_1", "A_2"] := by
  constructor
  · exact (tournament_name_dedup _ (by simp)).1
  · have h := (tournament_name_dedup
      [{ alwaysStillAgent with name := "A" },
       { alwaysStillAgent with name := "B" },
       { alwaysStillAgent with name := "A" },
       { alwaysStillAgent with name := "A" }] (by simp)).2 _ rfl
    rw [h]
    rfl

/-! ## Tournament engine (tournament.py) -/

/-- Modelled from the spec: `MatchResult.get_025_scores` is invoked by
`Tournament.run` but absent from match.py. Spec §4.4 prescribes "the
first-quartile (25th-percentile) score across the matchesPerPair match
totals" per side, with the exact quartile method left open (§9);
following the style of the sibling accessor `get_middle_scores`
(`sorted(l)[len(l) // 2] if l else 0`), the nearest-rank element
`sorted(l)[len(l) // 4]` is used, with the same emptiness guard. -/
def q25 (l : List Int) : Int :=
  let s := List.insertionSort (· ≤ ·) l
  if s.isEmpty then 0 else s.getD (s.length / 4) 0

/-- Modelled from the spec: the per-side 25th-percentile accessor used by
`Tournament.run` (`score_a, score_b = result.get_025_scores()`). -/
def MatchResult.get_025_scores (r : MatchResult) : Int × Int :=
  (q25 r.scores_a, q25 r.scores_b)

/-- The `i < j` index pairs of the double `enumerate` loop of
`Tournament.run`, in iteration order. -/
def pairsList (n : Nat) : List (Nat × Nat) :=
  (List.range n).flatMap (fun i =>
    ((List.range n).filter (fun j => i < j)).map (fun j => (i, j)))

/-- The nested `scores` dict of `Tournament.run`: outer keys are agent
names in insertion order, each bound to a per-opponent score dict. -/
abbrev ScoreDict := List (String × List (String × Int))

/-- `scores[k1][k2] = v`; the outer key `k1` is always present when the
loop performs this assignment (outer keys are exactly the roster names). -/
def scoresSet (scores : ScoreDict) (k1 k2 : String) (v : Int) : ScoreDict :=
  scores.map (fun p => if p.1 = k1 then (p.1, dictSet p.2 k2 v) else p)

/-- `scores = {agent.name: {} for agent in agents}`: keys in first
occurrence order, each bound to `{}` (a repeated key re-binds the same
empty dict, hence skipping it is equivalent). -/
def initScores (agents : List Agent) : ScoreDict :=
  agents.foldl (fun d a =>
    if (dictFind? d a.name).isSome then d else d ++ [(a.name, [])]) []

/-- The pair loop of `Tournament.run`: for every `i < j` roster pair, run
one `Match` (mutating both agent objects) and store the two
25th-percentile scores under `scores[nameA][nameB]` and
`scores[nameB][nameA]`; a `ValueError` from the match propagates. -/
def tournLoop (cfg : GameConfig) :
    List (Nat × Nat) → List Agent → ScoreDict →
    Except String (List Agent × ScoreDict)
  | [], agents, scores => .ok (agents, scores)
  | (i, j) :: rest, agents, scores =>
    match matchRun cfg (agents.getD i dummyAgent) (agents.getD j dummyAgent) with
    | .error e => .error e
    | .ok (res, A2, B2) =>
      tournLoop cfg rest ((agents.set i A2).set j B2)
        (scoresSet (scoresSet scores A2.name B2.name res.get_025_scores.1)
          B2.name A2.name res.get_025_scores.2)

/-- The `final_scores` aggregation of `Tournament.run`: for each outer key
in order, the arithmetic mean of its per-opponent scores (0 with no
opponents), Python float division modelled over ℚ. -/
def finalScores (scores : ScoreDict) : List (String × ℚ) :=
  scores.map (fun p =>
    (p.1,
      if (p.2.map Prod.snd).isEmpty then 0
      else (((p.2.map Prod.snd).sum : Int) : ℚ) / (p.2.map Prod.snd).length))

/-- The sort order of `ranked.sort(key=lambda x: x[1], reverse=True)`. -/
def rankedOrder (x y : String × ℚ) : Prop :=
  y.2 ≤ x.2

instance : DecidableRel rankedOrder := fun x y =>
  inferInstanceAs (Decidable (y.2 ≤ x.2))

instance : IsTotal (String × ℚ) rankedOrder :=
  ⟨fun a b => le_total b.2 a.2⟩

instance : IsTrans (String × ℚ) rankedOrder :=
  ⟨fun a b c h1 h2 => le_trans h2 h1⟩

/-- Embedding of `Tournament.__init__` + `Tournament.run`, the ranked
entries identified by agent name (the returned Python pairs are
`(agent_lookup[name], score)` with `agent_lookup[name].name == name`):
validate/rename the roster, run every `i < j` pair, aggregate
`final_scores`, and stable-sort descending by score. -/
def tournamentRun (cfg : GameConfig) (agents : List Agent) :
    Except String (List (String × ℚ)) :=
  match validateAgents agents with
  | .error e => .error e
  | .ok ags =>
    match tournLoop cfg (pairsList ags.length) ags (initScores ags) with
    | .error e => .error e
    | .ok (_, scores) =>
      .ok (List.insertionSort rankedOrder (finalScores scores))

/-- Trace variant of the pair loop: runs the identical matches in the
identical order, recording each pair's full `MatchResult` instead of
updating the name-keyed dict; used to state what the dict-based loop
computes. -/
def tournTrace (cfg : GameConfig) :
    List (Nat × Nat) → List Agent →
    Except String (List Agent × List ((Nat × Nat) × MatchResult))
  | [], agents => .ok (agents, [])
  | (i, j) :: rest, agents =>
    match matchRun cfg (agents.getD i dummyAgent) (agents.getD j dummyAgent) with
    | .error e => .error e
    | .ok (res, A2, B2) =>
      match tournTrace cfg rest ((agents.set i A2).set j B2) with
      | .error e => .error e
      | .ok (ags2, tr) => .ok (ags2, ((i, j), res) :: tr)

/-- The quartile scores the agent at roster index `k` earns across the
recorded pairwise results, in pair order: `q25` of its own side's
per-match totals for every pair it participates in. -/
def pairContribs (tr : List ((Nat × Nat) × MatchResult)) (k : Nat) :
    List Int :=
  tr.filterMap (fun e =>
    if e.1.1 = k then some (q25 e.2.scores_a)
    else if e.1.2 = k then some (q25 e.2.scores_b)
    else none)

/-- Arithmetic mean over ℚ with the source's emptiness guard. -/
def meanScore (l : List Int) : ℚ :=
  if l.isEmpty then 0 else ((l.sum : Int) : ℚ) / l.length

/-- C1 counterexample: for the roster `[A, A, A_1]` (three strategies),
deduplication yields the colliding names `[A, A_1, A_1]`, the name-keyed
score dict then conflates the two agents called `A_1`, and `Tournament.run`
returns a ranking with only two entries for three strategies — the second
roster agent has no score of its own in the result, so the claimed
per-strategy mean/ranking property fails as stated. -/
theorem tournament_duplicate_names_merge_entries :
    tournamentRun ⟨5, 3, 1, 0, 1, 1⟩
        [{ alwaysStillAgent with name := "A" },
         { alwaysStillAgent with name := "A" },
         { alwaysStillAgent with name := "A_1" }] =
      .ok [("A", 3), ("A_1", 3)] ∧
    ([{ alwaysStillAgent with name := "A" },
      { alwaysStillAgent with name := "A" },
      { alwaysStillAgent with name := "A_1" }] : List Agent).length = 3 := by
  constructor
  · have h1 : tournamentRun ⟨5, 3, 1, 0, 1, 1⟩
        [{ alwaysStillAgent with name := "A" },
         { alwaysStillAgent with name := "A" },
         { alwaysStillAgent with name := "A_1" }] =
      .ok (List.insertionSort rankedOrder (finalScores
        [("A", [("A_1", 3)]), ("A_1", [("A", 3), ("A_1", 3)])])) := rfl
    rw [h1]
    have h2 : finalScores [("A", [("A_1", 3)]), ("A_1", [("A", 3), ("A_1", 3)])] =
        [("A", (3 : ℚ)), ("A_1", (3 : ℚ))] := by
      simp [finalScores]
    rw [h2]
    have h3 : List.insertionSort rankedOrder [("A", (3 : ℚ)), ("A_1", (3 : ℚ))] =
        [("A", (3 : ℚ)), ("A_1", (3 : ℚ))] := by
      norm_num [List.insertionSort, List.orderedInsert, rankedOrder]
    rw [h3]
  · rfl

/-! ### The dict-based pair loop computes the trace's quartile table -/

theorem set_getD_self (l : List α) (i : Nat) (d : α) :
    l.set i (l.getD i d) = l := by
  induction l generalizing i with
  | nil => rfl
  | cons x xs ih =>
    cases i with
    | zero => rfl
    | succ n =>
      simp only [List.set_cons_succ, List.getD_cons_succ]
      rw [ih n]

theorem matchRun_names {cfg : GameConfig} {A B : Agent} {r : MatchResult}
    {A2 B2 : Agent} (h : matchRun cfg A B = .ok (r, A2, B2)) :
    A2.name = A.name ∧ B2.name = B.name := by
  unfold matchRun at h
  cases hm : matchGo cfg A B cfg.num_matches.toNat A.state B.state ⟨[], [], [], []⟩ with
  | error e => rw [hm] at h; cases h
  | ok out =>
    rw [hm] at h
    obtain ⟨r0, sa, sb⟩ := out
    cases h
    exact ⟨rfl, rfl⟩

theorem name_getD (agents : List Agent) (i : Nat) :
    (agents.getD i dummyAgent).name =
      (agents.map (fun a => a.name)).getD i "" := by
  induction agents generalizing i with
  | nil => rfl
  | cons a rest ih =>
    cases i with
    | zero => rfl
    | succ n =>
      simp only [List.getD_cons_succ, List.map_cons]
      exact ih n

theorem map_name_set (agents : List Agent) (i : Nat) (A2 : Agent)
    (hname : A2.name = (agents.getD i dummyAgent).name) :
    (agents.set i A2).map (fun a => a.name) =
      agents.map (fun a => a.name) := by
  rw [List.map_set, hname, name_getD]
  exact set_getD_self _ _ _

/-- How one recorded pair is written into the name-keyed dict (names taken
from the roster-name list, which the loop never changes). -/
def applyEntry (names : List String) (scores : ScoreDict)
    (e : (Nat × Nat) × MatchResult) : ScoreDict :=
  scoresSet
    (scoresSet scores (names.getD e.1.1 "") (names.getD e.1.2 "")
      e.2.get_025_scores.1)
    (names.getD e.1.2 "") (names.getD e.1.1 "") e.2.get_025_scores.2

theorem tournTrace_spec (cfg : GameConfig) :
    ∀ (P : List (Nat × Nat)) (ags : List Agent)
      (out : List Agent × List ((Nat × Nat) × MatchResult)),
      tournTrace cfg P ags = .ok out →
      out.2.map Prod.fst = P ∧
      out.1.map (fun a => a.name) = ags.map (fun a => a.name) ∧
      ∀ scores, tournLoop cfg P ags scores =
        .ok (out.1, out.2.foldl (applyEntry (ags.map (fun a => a.name))) scores) := by
  intro P
  induction P with
  | nil =>
    intro ags out h
    rw [tournTrace] at h
    cases h
    exact ⟨rfl, rfl, fun scores => rfl⟩
  | cons p rest ih =>
    obtain ⟨i, j⟩ := p
    intro ags out h
    rw [tournTrace] at h
    cases hm : matchRun cfg (ags.getD i dummyAgent) (ags.getD j dummyAgent) with
    | error e => rw [hm] at h; cases h
    | ok t =>
      obtain ⟨res, A2, B2⟩ := t
      rw [hm] at h
      dsimp only at h
      cases hrec : tournTrace cfg rest ((ags.set i A2).set j B2) with
      | error e => rw [hrec] at h; cases h
      | ok out2 =>
        rw [hrec] at h
        obtain ⟨ags2, tr⟩ := out2
        cases h
        obtain ⟨hA2, hB2⟩ := matchRun_names hm
        have hnames1 : ((ags.set i A2).set j B2).map (fun a => a.name) =
            ags.map (fun a => a.name) := by
          rw [map_name_set _ j B2 ?hB, map_name_set _ i A2 hA2]
          case hB =>
            rw [hB2, name_getD, name_getD, map_name_set _ i A2 hA2]
        obtain ⟨hpairs, hnms, hloop⟩ := ih _ _ hrec
        refine ⟨by simp [hpairs], by rw [hnms, hnames1], ?_⟩
        intro scores
        rw [tournLoop, hm]
        dsimp only
        rw [hloop, List.foldl_cons]
        rw [hnames1]
        have hkeyA : A2.name = (ags.map (fun a => a.name)).getD i "" := by
          rw [hA2, name_getD]
        have hkeyB : B2.name = (ags.map (fun a => a.name)).getD j "" := by
          rw [hB2, name_getD]
        rw [show applyEntry (ags.map fun a => a.name) scores ((i, j), res) =
          scoresSet (scoresSet scores A2.name B2.name res.get_025_scores.1)
            B2.name A2.name res.get_025_scores.2 by
          unfold applyEntry
          rw [hkeyA, hkeyB]]

theorem pairsList_mem (n : Nat) (p : Nat × Nat) :
    p ∈ pairsList n ↔ p.1 < p.2 ∧ p.2 < n := by
  obtain ⟨i, j⟩ := p
  simp only [pairsList, List.mem_flatMap, List.mem_map, List.mem_filter,
    List.mem_range, decide_eq_true_eq]
  constructor
  · rintro ⟨a, ha, b, ⟨hb, hab⟩, heq⟩
    cases heq
    exact ⟨hab, hb⟩
  · rintro ⟨h1, h2⟩
    exact ⟨i, by omega, j, ⟨h2, h1⟩, rfl⟩

theorem nodup_flatMap_disjoint {α β : Type} {f : α → List β} (l : List α)
    (hl : l.Nodup) (hf : ∀ a ∈ l, (f a).Nodup)
    (hd : ∀ a ∈ l, ∀ b ∈ l, a ≠ b → ∀ x ∈ f a, x ∉ f b) :
    (l.flatMap f).Nodup := by
  induction l with
  | nil => simp
  | cons a rest ih =>
    rw [List.flatMap_cons]
    have hanr : a ∉ rest := (List.nodup_cons.mp hl).1
    refine List.Nodup.append (hf a (List.mem_cons_self a rest)) ?_ ?_
    · refine ih (List.nodup_cons.mp hl).2 ?_ ?_
      · intro b hb
        exact hf b (List.mem_cons_of_mem a hb)
      · intro b hb c hc hbc
        exact hd b (List.mem_cons_of_mem a hb) c (List.mem_cons_of_mem a hc) hbc
    · intro x hxa hxr
      obtain ⟨b, hb, hxb⟩ := List.mem_flatMap.mp hxr
      exact hd a (List.mem_cons_self a rest) b (List.mem_cons_of_mem a hb)
        (fun hab => hanr (hab ▸ hb)) x hxa hxb

theorem pairsList_nodup (n : Nat) : (pairsList n).Nodup := by
  refine nodup_flatMap_disjoint (List.range n) (List.nodup_range n) ?_ ?_
  · intro a _
    refine List.Nodup.map ?_ (List.Nodup.filter _ (List.nodup_range n))
    intro x y hxy
    cases hxy
    rfl
  · intro a _ b _ hab x hxa hxb
    obtain ⟨xa, _, hxa2⟩ := List.mem_map.mp hxa
    obtain ⟨xb, _, hxb2⟩ := List.mem_map.mp hxb
    apply hab
    have := hxa2.trans hxb2.symm
    exact (Prod.mk.injEq _ _ _ _ ▸ this).1

theorem names_getD_inj (names : List String) (hnd : names.Nodup)
    {t k : Nat} (ht : t < names.length) (hk : k < names.length)
    (h : names.getD t "" = names.getD k "") : t = k := by
  rw [List.getD_eq_getElem names "" ht, List.getD_eq_getElem names "" hk] at h
  exact (List.Nodup.getElem_inj_iff hnd).mp h

theorem initScores_go (agents : List Agent) :
    ∀ acc : ScoreDict,
      (∀ a ∈ agents, dictFind? acc a.name = none) →
      (agents.map (fun a => a.name)).Nodup →
      agents.foldl (fun d a =>
        if (dictFind? d a.name).isSome then d else d ++ [(a.name, [])]) acc =
        acc ++ agents.map (fun a => (a.name, [])) := by
  induction agents with
  | nil => intro acc _ _; simp
  | cons a rest ih =>
    intro acc hacc hnd
    rw [List.foldl_cons]
    rw [if_neg (by rw [hacc a (List.mem_cons_self a rest)]; simp)]
    rw [ih (acc ++ [(a.name, [])]) ?fresh ?nd]
    · simp
    case fresh =>
      intro b hb
      rw [dictFind?_append, hacc b (List.mem_cons_of_mem a hb)]
      have hab : ¬ (a.name = b.name) := by
        simp only [List.map_cons, List.nodup_cons] at hnd
        intro he
        exact hnd.1 (he ▸ List.mem_map.mpr ⟨b, hb, rfl⟩)
      simp [dictFind?, hab]
    case nd =>
      simp only [List.map_cons, List.nodup_cons] at hnd
      exact hnd.2

theorem initScores_nodup (agents : List Agent)
    (hnd : (agents.map (fun a => a.name)).Nodup) :
    initScores agents = agents.map (fun a => (a.name, [])) := by
  unfold initScores
  rw [initScores_go agents [] (fun a _ => rfl) hnd]
  simp

theorem scoresSet_shape (names : List String)
    (inner : Nat → List (String × Int)) (k : Nat) (hk : k < names.length)
    (hnd : names.Nodup) (k2 : String) (v : Int) :
    scoresSet ((List.range names.length).map
        (fun t => (names.getD t "", inner t))) (names.getD k "") k2 v =
      (List.range names.length).map (fun t =>
        (names.getD t "", if t = k then dictSet (inner t) k2 v else inner t)) := by
  unfold scoresSet
  rw [List.map_map]
  refine List.map_congr_left ?_
  intro t ht
  rw [List.mem_range] at ht
  by_cases htk : t = k
  · subst htk
    simp only [Function.comp_apply, if_pos rfl, if_true]
  · have hne : ¬ (names.getD t "" = names.getD k "") := by
      intro he
      exact htk (names_getD_inj names hnd ht hk he)
    simp only [Function.comp_apply, hne, htk, if_false]

/-- The (opponent-name, quartile-score) dict entry a recorded pair writes
for the agent at roster index `k`, if that agent participates. -/
def contribPair (names : List String) (k : Nat)
    (e : (Nat × Nat) × MatchResult) : Option (String × Int) :=
  if e.1.1 = k then some (names.getD e.1.2 "", q25 e.2.scores_a)
  else if e.1.2 = k then some (names.getD e.1.1 "", q25 e.2.scores_b)
  else none

theorem dictFind?_contrib_none (names : List String) (hnd : names.Nodup)
    (t p : Nat) (ht : t < names.length) (hp : p < names.length) :
    ∀ (D : List ((Nat × Nat) × MatchResult)),
      (∀ e ∈ D, e.1.1 < e.1.2 ∧ e.1.2 < names.length) →
      (t, p) ∉ D.map Prod.fst → (p, t) ∉ D.map Prod.fst →
      dictFind? (D.filterMap (contribPair names t)) (names.getD p "") = none := by
  intro D
  induction D with
  | nil => intro _ _ _; rfl
  | cons e D2 ih =>
    obtain ⟨⟨i, j⟩, res⟩ := e
    intro hb hnot1 hnot2
    simp only [List.map_cons, List.mem_cons, not_or] at hnot1 hnot2
    obtain ⟨hne1, hnot1b⟩ := hnot1
    obtain ⟨hne2, hnot2b⟩ := hnot2
    have hbe := hb _ (List.mem_cons_self _ _)
    have hih := ih (fun x hx => hb x (List.mem_cons_of_mem _ hx)) hnot1b hnot2b
    rw [List.filterMap_cons]
    unfold contribPair
    dsimp only
    by_cases h1 : i = t
    · rw [if_pos h1, dictFind?]
      rw [if_neg ?keyne]
      · exact hih
      case keyne =>
        intro hkey
        have hjp : j = p := names_getD_inj names hnd hbe.2 hp hkey
        exact hne1 (by rw [h1, hjp])
    · rw [if_neg h1]
      by_cases h2 : j = t
      · rw [if_pos h2, dictFind?]
        rw [if_neg ?keyne2]
        · exact hih
        case keyne2 =>
          intro hkey
          have hip : i = p :=
            names_getD_inj names hnd (lt_trans hbe.1 hbe.2) hp hkey
          exact hne2 (by rw [hip, h2])
      · rw [if_neg h2]
        exact hih

theorem foldl_applyEntry_shape (names : List String) (hnd : names.Nodup) :
    ∀ (T D : List ((Nat × Nat) × MatchResult)),
      (∀ e ∈ D ++ T, e.1.1 < e.1.2 ∧ e.1.2 < names.length) →
      ((D ++ T).map Prod.fst).Nodup →
      T.foldl (applyEntry names)
        ((List.range names.length).map (fun t =>
          (names.getD t "", D.filterMap (contribPair names t)))) =
      (List.range names.length).map (fun t =>
        (names.getD t "", (D ++ T).filterMap (contribPair names t))) := by
  intro T
  induction T with
  | nil => intro D _ _; simp
  | cons e T2 ih =>
    obtain ⟨⟨i, j⟩, res⟩ := e
    intro D hb hnodup
    have hbe : i < j ∧ j < names.length :=
      hb (((i, j), res)) (List.mem_append_right _ (List.mem_cons_self _ _))
    have hi : i < names.length := lt_trans hbe.1 hbe.2
    have hj : j < names.length := hbe.2
    have hij : ¬ (i = j) := by omega
    have hmemD : ((i, j) : Nat × Nat) ∉ D.map Prod.fst := by
      rw [List.map_append, List.map_cons] at hnodup
      intro hmem
      have := List.disjoint_of_nodup_append hnodup hmem
      exact this (List.mem_cons_self _ _)
    have hjiD : ((j, i) : Nat × Nat) ∉ D.map Prod.fst := by
      intro hmem
      obtain ⟨x, hx, hxe⟩ := List.mem_map.mp hmem
      have := (hb x (List.mem_append_left _ hx)).1
      rw [hxe] at this
      omega
    rw [List.foldl_cons]
    have hstep : applyEntry names ((List.range names.length).map (fun t =>
          (names.getD t "", D.filterMap (contribPair names t)))) ((i, j), res) =
        (List.range names.length).map (fun t =>
          (names.getD t "", (D ++ [((i, j), res)]).filterMap (contribPair names t))) := by
      unfold applyEntry
      dsimp only
      rw [scoresSet_shape names _ i hi hnd, scoresSet_shape names _ j hj hnd]
      refine List.map_congr_left ?_
      intro t ht
      rw [List.mem_range] at ht
      refine congrArg _ ?_
      rw [List.filterMap_append]
      by_cases h1 : t = j
      · rw [if_pos h1, if_neg (by omega)]
        rw [List.filterMap_cons, show contribPair names t ((i, j), res) =
          some (names.getD i "", q25 res.scores_b) from by
            unfold contribPair
            dsimp only
            rw [if_neg (by omega), if_pos h1.symm]]
        dsimp only [List.filterMap_nil]
        unfold dictSet
        rw [dictFind?_contrib_none names hnd t i ht hi D
          (fun x hx => hb x (List.mem_append_left _ hx))
          (by intro hmem; rw [h1] at hmem; exact hjiD hmem)
          (by intro hmem; rw [h1] at hmem; exact hmemD hmem)]
        simp [MatchResult.get_025_scores]
      · rw [if_neg h1]
        by_cases h2 : t = i
        · rw [if_pos h2]
          rw [List.filterMap_cons, show contribPair names t ((i, j), res) =
            some (names.getD j "", q25 res.scores_a) from by
              unfold contribPair
              dsimp only
              rw [if_pos h2.symm]]
          dsimp only [List.filterMap_nil]
          unfold dictSet
          rw [dictFind?_contrib_none names hnd t j ht hj D
            (fun x hx => hb x (List.mem_append_left _ hx))
            (by intro hmem; rw [h2] at hmem; exact hmemD hmem)
            (by intro hmem; rw [h2] at hmem; exact hjiD hmem)]
          simp [MatchResult.get_025_scores]
        · rw [if_neg h2]
          rw [List.filterMap_cons, show contribPair names t ((i, j), res) = none from by
            unfold contribPair
            dsimp only
            rw [if_neg (by omega), if_neg (by omega)]]
          simp
    rw [hstep]
    have hassoc : (D ++ [((i, j), res)]) ++ T2 = D ++ ((i, j), res) :: T2 := by
      simp
    rw [ih (D ++ [((i, j), res)]) (by rw [hassoc]; exact hb)
      (by rw [hassoc]; exact hnodup), hassoc]

theorem contribPair_snd (names : List String) (t : Nat)
    (D : List ((Nat × Nat) × MatchResult)) :
    (D.filterMap (contribPair names t)).map Prod.snd = pairContribs D t := by
  induction D with
  | nil => rfl
  | cons e D2 ih =>
    obtain ⟨⟨i, j⟩, res⟩ := e
    by_cases h1 : i = t
    · rw [List.filterMap_cons, show contribPair names t ((i, j), res) =
        some (names.getD j "", q25 res.scores_a) from by
          unfold contribPair
          dsimp only
          rw [if_pos h1]]
      rw [show pairContribs (((i, j), res) :: D2) t =
        q25 res.scores_a :: pairContribs D2 t from by
          unfold pairContribs
          rw [List.filterMap_cons]
          dsimp only
          rw [if_pos h1]]
      simp only [List.map_cons]
      rw [ih]
    · by_cases h2 : j = t
      · rw [List.filterMap_cons, show contribPair names t ((i, j), res) =
          some (names.getD i "", q25 res.scores_b) from by
            unfold contribPair
            dsimp only
            rw [if_neg h1, if_pos h2]]
        rw [show pairContribs (((i, j), res) :: D2) t =
          q25 res.scores_b :: pairContribs D2 t from by
            unfold pairContribs
            rw [List.filterMap_cons]
            dsimp only
            rw [if_neg h1, if_pos h2]]
        simp only [List.map_cons]
        rw [ih]
      · rw [List.filterMap_cons, show contribPair names t ((i, j), res) =
          none from by
            unfold contribPair
            dsimp only
            rw [if_neg h1, if_neg h2]]
        rw [show pairContribs (((i, j), res) :: D2) t =
          pairContribs D2 t from by
            unfold pairContribs
            rw [List.filterMap_cons]
            dsimp only
            rw [if_neg h1, if_neg h2]]
        exact ih

theorem finalScores_shape (names : List String)
    (inner : Nat → List (String × Int)) :
    finalScores ((List.range names.length).map
        (fun t => (names.getD t "", inner t))) =
      (List.range names.length).map (fun t =>
        (names.getD t "", meanScore ((inner t).map Prod.snd))) := by
  unfold finalScores meanScore
  rw [List.map_map]
  rfl

theorem map_pair_eq_range (ags : List Agent) :
    ags.map (fun a => (a.name, ([] : List (String × Int)))) =
      (List.range (ags.map (fun a => a.name)).length).map (fun t =>
        ((ags.map (fun a => a.name)).getD t "",
          ([] : List (String × Int)))) := by
  apply List.ext_getElem
  · simp
  · intro n h1 h2
    simp only [List.getElem_map, List.getElem_range]
    have hb : n < (ags.map (fun a => a.name)).length := by
      simpa using h1
    rw [List.getD_eq_getElem _ "" hb]
    simp

/-- One ranking entry per roster index `k`: the deduplicated name of the
`k`-th agent together with the arithmetic mean of its per-opponent
25th-percentile scores over the recorded pairwise results. -/
def rankedBase (ags : List Agent)
    (tr : List ((Nat × Nat) × MatchResult)) : List (String × ℚ) :=
  (List.range ags.length).map (fun k =>
    ((ags.map (fun a => a.name)).getD k "", meanScore (pairContribs tr k)))

/-- C1 (amended): for a roster of at least two agents whose names are
pairwise distinct *after* deduplication, whenever the pairwise matches
complete (recorded by the trace `tr`), `Tournament.run` returns the
ranking obtained by: taking, for each unordered pair, `q25` of each
side's per-match totals as that side's contribution (`pairContribs`),
averaging each strategy's contributions over its opponents
(`meanScore`), and sorting the `(name, finalScore)` entries descending by
score (stable); the executed pairs are exactly the `i < j` roster pairs,
each once. -/
theorem tournament_quartile_mean_ranking (cfg : GameConfig)
    (agents ags ags2 : List Agent)
    (tr : List ((Nat × Nat) × MatchResult))
    (hv : validateAgents agents = .ok ags)
    (hnd : (ags.map (fun a => a.name)).Nodup)
    (htr : tournTrace cfg (pairsList ags.length) ags = .ok (ags2, tr)) :
    tournamentRun cfg agents =
      .ok (List.insertionSort rankedOrder (rankedBase ags tr)) ∧
    List.Sorted rankedOrder
      (List.insertionSort rankedOrder (rankedBase ags tr)) ∧
    (List.insertionSort rankedOrder (rankedBase ags tr)).Perm
      (rankedBase ags tr) ∧
    tr.map Prod.fst = pairsList ags.length ∧
    (∀ p : Nat × Nat, p ∈ tr.map Prod.fst ↔ p.1 < p.2 ∧ p.2 < ags.length) := by
  obtain ⟨hpairs, hnames2, hloop⟩ := tournTrace_spec cfg _ _ _ htr
  dsimp only at hpairs hnames2 hloop
  refine ⟨?_, List.sorted_insertionSort rankedOrder _,
    List.perm_insertionSort rankedOrder _, hpairs, ?_⟩
  · unfold tournamentRun
    rw [hv]
    dsimp only
    rw [hloop (initScores ags)]
    dsimp only
    rw [initScores_nodup ags hnd, map_pair_eq_range]
    have hfold := foldl_applyEntry_shape (ags.map (fun a => a.name)) hnd tr []
      ?hb ?hnd2
    case hb =>
      intro e he
      rw [List.nil_append] at he
      have hmem : e.1 ∈ tr.map Prod.fst := List.mem_map.mpr ⟨e, he, rfl⟩
      rw [hpairs] at hmem
      have := (pairsList_mem ags.length e.1).mp hmem
      rw [List.length_map]
      exact this
    case hnd2 =>
      rw [List.nil_append, hpairs]
      exact pairsList_nodup _
    simp only [List.nil_append, List.filterMap_nil] at hfold
    rw [hfold]
    rw [finalScores_shape]
    refine congrArg Except.ok (congrArg (List.insertionSort rankedOrder) ?_)
    unfold rankedBase
    rw [List.length_map]
    refine List.map_congr_left ?_
    intro t _
    rw [contribPair_snd]
  · intro p
    rw [hpairs]
    exact pairsList_mem ags.length p

/-- Witness for C1 (amended): AlwaysStill vs AlwaysBeat, one match of one
round. -/
theorem tournament_quartile_mean_ranking_witness :
    tournamentRun ⟨5, 3, 1, 0, 1, 1⟩ [alwaysStillAgent, alwaysBeatAgent] =
      .ok (List.insertionSort rankedOrder
        (rankedBase [alwaysStillAgent, alwaysBeatAgent]
          [((0, 1), ⟨[0], [5], [["still"]], [["beat"]]⟩)])) ∧
    List.Sorted rankedOrder (List.insertionSort rankedOrder
      (rankedBase [alwaysStillAgent, alwaysBeatAgent]
        [((0, 1), ⟨[0], [5], [["still"]], [["beat"]]⟩)])) ∧
    (List.insertionSort rankedOrder
      (rankedBase [alwaysStillAgent, alwaysBeatAgent]
        [((0, 1), ⟨[0], [5], [["still"]], [["beat"]]⟩)])).Perm
      (rankedBase [alwaysStillAgent, alwaysBeatAgent]
        [((0, 1), ⟨[0], [5], [["still"]], [["beat"]]⟩)]) ∧
    ([((0, 1), (⟨[0], [5], [["still"]], [["beat"]]⟩ : MatchResult))].map
      Prod.fst) = pairsList 2 ∧
    (∀ p : Nat × Nat,
      p ∈ ([((0, 1), (⟨[0], [5], [["still"]], [["beat"]]⟩ : MatchResult))].map
        Prod.fst) ↔ p.1 < p.2 ∧ p.2 < 2) :=
  tournament_quartile_mean_ranking ⟨5, 3, 1, 0, 1, 1⟩
    [alwaysStillAgent, alwaysBeatAgent] [alwaysStillAgent, alwaysBeatAgent]
    [alwaysStillAgent, alwaysBeatAgent]
    [((0, 1), ⟨[0], [5], [["still"]], [["beat"]]⟩)]
    (by rfl) (by decide) (by rfl)
